import Mathlib

/-!
# Route resolution of the `net` HTTP server

A shallow embedding of `src/http_server.cc`: the trie `internals::Node`, the
constructor `HandlerMap::HandlerMap` that inserts every configured route, and the
lookup `HandlerMap::get_handler`, followed by theorems about which handler a path
resolves to.

Conventions of the embedding.

* `std::string` is `String`; `std::map<std::string, Node>` is a list of
  key/value pairs kept in increasing key order, keys unique.
* The constructor walks the trie through a mutable pointer `n`; here the same
  update is written as a function that rebuilds the nodes on the walked path.
* The `for` loop of `get_handler` over the indices of `query.components` is a
  recursion over the segments still to be read; `i == size - 1` is "no segment
  is left after this one".
* A `Handler` is the function that its call computes: from a request to the
  response it returns, or to the exception by which the call exits.
* `HttpServer::start` runs its loop in a task and hands each accepted socket to a
  detached thread; here the loop is a function of the outcomes of the successive
  calls of `accept`, which records the sockets handed over, and the body of a
  thread is a function of what happens on its socket.
-/

namespace net

/-! ## Collaborators whose headers are not part of the sources at hand -/

/-- Modelled from the spec: the class `Query` of `path.h` (not under `src/`).
Only its member `components`, the ordered sequence of path segments, is used. -/
structure Query where
  components : List String

/-- Splitting of a path on the character `/`; `cur` holds, reversed, the characters
of the segment being read. Empty segments are dropped. -/
def Query.split : List Char → List Char → List String
  | [], cur => if cur.isEmpty then [] else [String.mk cur.reverse]
  | c :: cs, cur =>
    if c = '/' then
      (if cur.isEmpty then Query.split cs []
       else String.mk cur.reverse :: Query.split cs [])
    else Query.split cs (c :: cur)

/-- Modelled from the spec: the constructor `Query(path)` of `path.h` (not under
`src/`), which "parses a URL path string into an ordered sequence of non-empty
segment tokens (splitting on `/`, discarding empty segments produced by
leading/trailing/duplicate slashes)". -/
def Query.ofPath (path : String) : Query :=
  ⟨Query.split path.data []⟩

/-- Modelled from the spec: the class `HttpRequest` of `http_request.h` (not under
`src/`); the server reads its member `query` only. -/
structure HttpRequest where
  query : Query

/-- Modelled from the spec: the class `HttpStatus` of `http_status.h` (not under
`src/`), built as `HttpStatus(code, reason, headers, body)`: "a numeric status
code, a status reason phrase, a mapping of header name to value, and a body
payload". -/
structure HttpStatus where
  code : Nat
  reason : String
  headers : List (String × String)
  body : String

/-- The type `Handler`: a callable taking a request and giving a response. The call
`h(request)` returns a response (`Except.ok`) or exits by an exception
(`Except.error`, with what the exception says). -/
abbrev Handler := HttpRequest → Except String HttpStatus

/-- Modelled from the spec: the type `HttpServer::HandlerConfiguration` (its
declaration is not under `src/`). The constructor iterates over it and reads
`conf.first` (the path), `conf.second.first` (the handler) and
`conf.second.second` (the capture flag) of each entry; the list holds the entries
in iteration order. -/
abbrev HandlerConfiguration := List (String × (Handler × Bool))

namespace internals

/-! ## `std::map<std::string, Node>` -/

/-- The order of `std::string` keys: lexicographic on the characters. -/
def key_less (a b : String) : Bool := decide (a.data < b.data)

/-- The call `m.find(k)`: the value stored under `k`, or `none` for `m.end()`. -/
def map_find {α : Type} : List (String × α) → String → Option α
  | [], _ => none
  | (k', v) :: rest, k => if k = k' then some v else map_find rest k

/-- The assignment `m[k] = v`: replaces the value under `k`, or adds the key at its
place in the key order. -/
def map_assign {α : Type} : List (String × α) → String → α → List (String × α)
  | [], k, v => [(k, v)]
  | (k', v') :: rest, k, v =>
    if k = k' then (k, v) :: rest
    else if key_less k k' then (k, v) :: (k', v') :: rest
    else (k', v') :: map_assign rest k v

/-! ## The trie -/

/-- The struct `Node`: "Trie to allow for partial matching of paths." -/
structure Node where
  handler : Handler
  capture_children : Bool
  next : List (String × Node)

/-- The static `Node::null_handler`: "Analogous to a null pointer; offers some
default behaviour." -/
def Node.null_handler : Handler :=
  fun _ => .ok ⟨500, "Internal Server Error", [], "500 Internal Server Error"⟩

/-- The constructor `Node(Handler h = null_handler, bool b = false)` called without
arguments, as `std::map::operator[]` does for an absent key. -/
def Node.default : Node := ⟨Node.null_handler, false, []⟩

/-- The value of `n->next[s]`: the child under `s`, a fresh `Node()` when absent. -/
def Node.child (n : Node) (s : String) : Node :=
  (map_find n.next s).getD Node.default

/-- The body of the constructor's outer loop for one entry, started at node `n`:
`for (s : components) n = &(n->next[s]);` and then
`n->handler = h; n->capture_children = b;`. -/
def Node.insert (h : Handler) (b : Bool) : List String → Node → Node
  | [], n => { n with handler := h, capture_children := b }
  | s :: rest, n =>
    { n with next := map_assign n.next s (Node.insert h b rest (n.child s)) }

/-- The class `HandlerMap`: "Class that maps paths to handlers." -/
structure HandlerMap where
  root : Node
  default_handler : Handler

/-- The constructor `HandlerMap::HandlerMap(config, default_handler)`: the root
starts as `Node(Node::null_handler, false)` and each entry is inserted in turn. -/
def HandlerMap.new (config : HandlerConfiguration) (default_handler : Handler) :
    HandlerMap :=
  { root := config.foldl
      (fun root conf =>
        Node.insert conf.2.1 conf.2.2 (Query.ofPath conf.1).components root)
      ⟨Node.null_handler, false, []⟩
    default_handler := default_handler }

/-- The objects of type `Handler` whose addresses `get_handler` compares: the static
`Node::null_handler`, and the member `handler` of a node of the trie, the node
being named by the segments that lead to it from the root. Different objects have
different addresses. -/
inductive HandlerObject where
  | static_null_handler
  | member_of_node (segments : List String)
  deriving DecidableEq

/-- The loop of `get_handler`. `walked` are the segments read so far (they name the
node `n`), the list argument holds `components[i], components[i+1], ...`, and `h`
is the best handler so far. -/
def HandlerMap.get_handler_loop : List String → Node → List String → Handler → Handler
  | _, _, [], h => h
  | walked, n, s :: rest, h =>
    match map_find n.next s with
    | none => h
    | some n' =>
      HandlerMap.get_handler_loop (walked ++ [s]) n' rest
        (if decide (HandlerObject.member_of_node (walked ++ [s])
              ≠ HandlerObject.static_null_handler)
            && (n'.capture_children || rest.isEmpty)
         then n'.handler else h)

/-- The method `HandlerMap::get_handler(query)`. -/
def HandlerMap.get_handler (m : HandlerMap) (query : Query) : Handler :=
  HandlerMap.get_handler_loop [] m.root query.components
    (if m.root.capture_children || query.components.isEmpty
     then m.root.handler else m.default_handler)

/-! ## Reading a trie and a configuration -/

/-- The node reached from `n` by following the children keyed by the segments in
order, `none` when some segment has no child. -/
def Node.walk : Node → List String → Option Node
  | n, [] => some n
  | n, s :: rest =>
    match map_find n.next s with
    | none => none
    | some c => Node.walk c rest

/-- The handler and capture flag held by the node reached by the segments. -/
def Node.entry (n : Node) (segments : List String) : Option (Handler × Bool) :=
  (Node.walk n segments).map (fun c => (c.handler, c.capture_children))

/-- The segment sequence of a configured entry. -/
def segments_of (conf : String × (Handler × Bool)) : List String :=
  (Query.ofPath conf.1).components

/-- The entry in force for a segment sequence: the handler and flag of the last
entry of the configuration with exactly these segments. -/
def effective (config : HandlerConfiguration) (segments : List String) :
    Option (Handler × Bool) :=
  ((config.filter (fun conf => segments_of conf = segments)).getLast?).map (·.2)

/-- Whether the segments lead to a node of the trie built from the configuration:
they are the root, or they begin the segments of some entry. -/
def present (config : HandlerConfiguration) (segments : List String) : Bool :=
  segments.isEmpty || config.any (fun conf => segments.isPrefixOf (segments_of conf))

/-- An entry of the configuration that no later entry with the same segment
sequence overwrites. -/
def in_force (config : HandlerConfiguration) (e : String × (Handler × Bool)) : Prop :=
  ∃ l1 l2, config = l1 ++ e :: l2 ∧ ∀ e' ∈ l2, segments_of e' ≠ segments_of e

/-- What the node reached by the segments offers to deeper paths: its handler when
its capture flag is set. -/
def Node.capturing (n : Node) (segments : List String) : Option Handler :=
  match Node.entry n segments with
  | some (H, true) => some H
  | _ => none

/-- The best handler after walking `segments` from `n`, none of them being the last
segment of the query: each child found replaces the handler when its flag is set. -/
def Node.captured : Node → List String → Handler → Handler
  | _, [], h => h
  | n, s :: rest, h =>
    match map_find n.next s with
    | none => h
    | some c => Node.captured c rest (if c.capture_children then c.handler else h)

/-- The handler of the entry in force at the segments when that entry captures
children. -/
def capturing (config : HandlerConfiguration) (segments : List String) :
    Option Handler :=
  match effective config segments with
  | some (H, true) => some H
  | _ => none

/-- The handler of the longest beginning of `walked` (the empty one, the root,
included) whose entry in force captures children; the default handler when there
is none. `walked.inits` lists the beginnings from the shortest to the longest. -/
def longest_capture (config : HandlerConfiguration) (D : Handler)
    (walked : List String) : Handler :=
  ((walked.inits.reverse.filterMap (capturing config)).head?).getD D

/-! ## The handlers of `src/examples/http_server.cc` -/

namespace examples

/-- The handler bound to `/` in the example program. -/
def index_handler : Handler := fun _ => .ok ⟨200, "OK", [], "Index page"⟩

/-- The handler bound to `/path1` in the example program. -/
def teapot_handler : Handler := fun _ => .ok ⟨418, "NOT A TEAPOT", [], "TEAPOT"⟩

/-- The handler bound to `/path2` in the example program. -/
def congratulations_handler : Handler :=
  fun _ => .ok ⟨200, "OK", [], "Congratulations!"⟩

/-- The lambda `def` of the example program, passed as the default handler. -/
def def_handler : Handler := fun _ => .ok ⟨404, "NOT FOUND", [], "404 not found"⟩

/-- The status code a handler answers to the request for `/`; `0` when the call
exits by an exception. -/
def code_of (h : Handler) : Nat :=
  match h ⟨Query.ofPath "/"⟩ with
  | .ok response => response.code
  | .error _ => 0

end examples

end internals

/-! ## The server -/

/-- Modelled from the spec: the type `Error` of `net_error.h` (not under `src/`),
with its value `OK` ("empty/none when healthy"). -/
inductive Error where
  | OK
  | failure (code : Nat)
  deriving DecidableEq

/-- Modelled from the spec: the class `Socket` of `socket.h` (not under `src/`), as
the server uses an accepted connection. `valid` is its conversion to `bool`
(`if (s)`), `error` is `s.error()`. `read_from_socket` is how the call
`request.read_from_socket(s)` ends on this connection: it returns, leaving
`request` as given (the server looks at no return value), or it exits by an
exception. `write_to_socket` is how `response.write_to_socket(s)` ends. -/
structure Socket where
  valid : Bool
  error : Error
  read_from_socket : Except String HttpRequest
  write_to_socket : HttpStatus → Except String Unit

/-- Modelled from the spec: the class `ServerSocket` of `serversocket.h` (not under
`src/`): `valid` is its conversion to `bool` (`!ss` is its negation), `error` is
`ss.error()`. The outcomes of `ss.accept()` are an argument of `start`. -/
structure ServerSocket where
  valid : Bool
  error : Error

/-- The class `HttpServer`, with the members the constructor sets. -/
structure HttpServer where
  ss : ServerSocket
  handlers : internals.HandlerMap
  die_on_error : Bool
  err : Error

/-- Modelled from the spec: the class `HttpServer::Options` (the header under `src/`
declares it empty); the constructor reads `port`, `queue_length` and
`die_on_error`. -/
structure HttpServer.Options where
  port : Nat
  queue_length : Nat
  die_on_error : Bool

/-- The constructor `HttpServer::HttpServer(handlers, default_handler, options)`.
`listen port queue_length` is the listening socket as `ss(options.port,
options.queue_length)` leaves it, bound or failed. -/
def HttpServer.new (listen : Nat → Nat → ServerSocket)
    (handlers : HandlerConfiguration) (default_handler : Handler)
    (options : HttpServer.Options) : HttpServer :=
  { ss := listen options.port options.queue_length
    handlers := internals.HandlerMap.new handlers default_handler
    die_on_error := options.die_on_error
    err := (listen options.port options.queue_length).error }

/-- The method `HttpServer::error()`. -/
def HttpServer.error (srv : HttpServer) : Error := srv.err

/-- What the task of `start` has done once the given calls of `accept` have
returned: `result` is the value of the future (`none` while the loop is still
running), `accepts` counts the calls of `ss.accept()`, `spawned` lists the sockets
handed to a detached thread, in order. -/
structure HttpServer.Run where
  result : Option Error
  accepts : Nat
  spawned : List Socket

/-- The loop `for (;;)` of `start`, on the sockets that the successive calls of
`ss.accept()` return. -/
def HttpServer.accept_loop (die_on_error : Bool) : List Socket → HttpServer.Run
  | [] => ⟨none, 0, []⟩
  | s :: rest =>
    if s.valid then
      let run := HttpServer.accept_loop die_on_error rest
      ⟨run.result, run.accepts + 1, s :: run.spawned⟩
    else if die_on_error then
      ⟨some s.error, 1, []⟩
    else
      let run := HttpServer.accept_loop die_on_error rest
      ⟨run.result, run.accepts + 1, run.spawned⟩

/-- The task of `HttpServer::start()`: `if (!ss) return ss.error();`, then the
loop. -/
def HttpServer.start (srv : HttpServer) (accepted : List Socket) : HttpServer.Run :=
  if !srv.ss.valid then ⟨some srv.ss.error, 0, []⟩
  else HttpServer.accept_loop srv.die_on_error accepted

namespace internals

/-! ## Maps and single insertions -/

theorem map_find_assign {α : Type} (m : List (String × α)) (k : String) (v : α)
    (k' : String) :
    map_find (map_assign m k v) k' = if k' = k then some v else map_find m k' := by
  induction m with
  | nil => simp [map_assign, map_find]
  | cons p rest ih =>
    obtain ⟨k0, v0⟩ := p
    by_cases h1 : k = k0
    · subst h1
      by_cases h3 : k' = k <;> simp [map_assign, map_find, h3]
    · by_cases h2 : key_less k k0 = true
      · simp only [map_assign, h1, h2, if_true, if_false, map_find]
      · by_cases h3 : k' = k0
        · subst h3
          have : ¬ k' = k := fun h => h1 h.symm
          simp [map_assign, h1, h2, map_find, this]
        · simp [map_assign, h1, h2, map_find, h3, ih]

theorem walk_default (q : List String) :
    Node.walk Node.default q = if q = [] then some Node.default else none := by
  cases q <;> simp [Node.walk, Node.default, map_find]

theorem entry_nil (n : Node) : Node.entry n [] = some (n.handler, n.capture_children) := rfl

theorem entry_cons (n : Node) (s : String) (q : List String) :
    Node.entry n (s :: q) = (map_find n.next s).bind (fun c => Node.entry c q) := by
  unfold Node.entry
  simp only [Node.walk]
  cases map_find n.next s <;> rfl

theorem entry_default (q : List String) :
    Node.entry Node.default q = if q = [] then some (Node.null_handler, false) else none := by
  unfold Node.entry
  rw [walk_default]
  split <;> rfl

/-- What one insertion does to the entry read at any segment sequence. -/
theorem entry_insert (h : Handler) (b : Bool) (p : List String) :
    ∀ (n : Node) (q : List String),
      Node.entry (Node.insert h b p n) q =
        if q = p then some (h, b)
        else if q <+: p then some ((Node.entry n q).getD (Node.null_handler, false))
        else Node.entry n q := by
  induction p with
  | nil =>
    intro n q
    cases q with
    | nil => simp [Node.insert, entry_nil]
    | cons s r => simp [Node.insert, entry_cons]
  | cons s0 p ih =>
    intro n q
    cases q with
    | nil => simp [Node.insert, entry_nil]
    | cons s r =>
      simp only [Node.insert, entry_cons, map_find_assign]
      by_cases hs : s = s0
      · subst hs
        rw [if_pos rfl, Option.some_bind, ih]
        simp only [List.cons.injEq, true_and, List.cons_prefix_cons, Node.child]
        cases hf : map_find n.next s with
        | none =>
          simp only [Option.getD_none, entry_default, Option.none_bind]
          by_cases h1 : r = p
          · simp [h1]
          · by_cases h2 : r <+: p
            · simp only [h1, h2, if_true, if_false]
              split <;> rfl
            · have : r ≠ [] := by
                rintro rfl
                exact h2 (List.nil_prefix)
              simp [h1, h2, this]
        | some c => simp
      · simp [hs, List.cons_prefix_cons]

/-! ## The trie built by the constructor -/

theorem new_root_nil (D : Handler) :
    (HandlerMap.new [] D).root = ⟨Node.null_handler, false, []⟩ := rfl

theorem new_root_append (l : HandlerConfiguration) (e : String × (Handler × Bool))
    (D : Handler) :
    (HandlerMap.new (l ++ [e]) D).root =
      Node.insert e.2.1 e.2.2 (segments_of e) (HandlerMap.new l D).root := by
  simp [HandlerMap.new, List.foldl_append, segments_of]

theorem new_default_handler (config : HandlerConfiguration) (D : Handler) :
    (HandlerMap.new config D).default_handler = D := rfl

theorem effective_nil (q : List String) : effective [] q = none := rfl

theorem effective_append (l : HandlerConfiguration) (e : String × (Handler × Bool))
    (q : List String) :
    effective (l ++ [e]) q = if segments_of e = q then some e.2 else effective l q := by
  unfold effective
  by_cases h : segments_of e = q
  · simp [List.filter_append, h, List.filter_cons]
  · simp [List.filter_append, h, List.filter_cons]

theorem present_append (l : HandlerConfiguration) (e : String × (Handler × Bool))
    (q : List String) :
    present (l ++ [e]) q = (present l q || decide (q <+: segments_of e)) := by
  have hb : q.isPrefixOf (segments_of e) = decide (q <+: segments_of e) := by
    rw [Bool.eq_iff_iff]
    simp [List.isPrefixOf_iff_prefix]
  unfold present
  simp only [List.any_append, List.any_cons, List.any_nil, Bool.or_false, hb,
    Bool.or_assoc]

theorem present_of_effective (l : HandlerConfiguration) (q : List String)
    (x : Handler × Bool) (h : effective l q = some x) : present l q = true := by
  unfold effective at h
  simp only [Option.map_eq_some'] at h
  obtain ⟨e, he, -⟩ := h
  have hm := List.mem_of_getLast?_eq_some he
  simp only [List.mem_filter, decide_eq_true_eq] at hm
  unfold present
  simp only [Bool.or_eq_true, List.any_eq_true, List.isPrefixOf_iff_prefix]
  exact Or.inr ⟨e, hm.1, by rw [hm.2]⟩

/-- The trie built from a configuration, read at any segment sequence: a node is
there exactly for the root and for what begins a configured entry, and it holds the
entry in force, or the constructor's defaults when none is. -/
theorem entry_new (config : HandlerConfiguration) (D : Handler) (q : List String) :
    Node.entry (HandlerMap.new config D).root q =
      if present config q then
        some ((effective config q).getD (Node.null_handler, false))
      else none := by
  induction config using List.reverseRecOn with
  | nil =>
    cases q with
    | nil => rfl
    | cons s r => simp [new_root_nil, entry_cons, map_find, present]
  | append_singleton l e ih =>
    rw [new_root_append, entry_insert, ih, effective_append, present_append]
    by_cases h1 : q = segments_of e
    · subst h1
      simp
    · have h1' : ¬ segments_of e = q := fun h => h1 h.symm
      by_cases h2 : q <+: segments_of e
      · simp only [h1, h1', h2, if_false, if_true, decide_True, Bool.or_true]
        cases hp : present l q with
        | true => simp
        | false =>
          cases he : effective l q with
          | none => simp
          | some x => rw [present_of_effective l q x he] at hp; cases hp
      · simp [h1, h1', h2]

theorem effective_of_in_force (config : HandlerConfiguration)
    (e : String × (Handler × Bool)) (h : in_force config e) :
    effective config (segments_of e) = some e.2 := by
  obtain ⟨l1, l2, rfl, hl2⟩ := h
  have hnil : l2.filter (fun conf => segments_of conf = segments_of e) = [] := by
    rw [List.filter_eq_nil_iff]
    intro a ha
    simpa using hl2 a ha
  unfold effective
  have hsplit : l1 ++ e :: l2 = (l1 ++ [e]) ++ l2 := by simp
  rw [hsplit, List.filter_append, hnil, List.append_nil, List.filter_append]
  simp [List.filter_cons]

theorem walk_of_entry (n : Node) (q : List String) (x : Handler × Bool)
    (h : Node.entry n q = some x) :
    ∃ c, Node.walk n q = some c ∧ c.handler = x.1 ∧ c.capture_children = x.2 := by
  unfold Node.entry at h
  cases hw : Node.walk n q with
  | none => rw [hw] at h; cases h
  | some c =>
    rw [hw] at h
    simp only [Option.map_some', Option.some.injEq] at h
    exact ⟨c, rfl, by rw [← h], by rw [← h]⟩

/-- The node of the built trie for the segments of an entry in force holds that
entry's handler and flag. -/
theorem walk_new_in_force (config : HandlerConfiguration) (D : Handler)
    (e : String × (Handler × Bool)) (h : in_force config e) :
    ∃ c, Node.walk (HandlerMap.new config D).root (segments_of e) = some c ∧
      c.handler = e.2.1 ∧ c.capture_children = e.2.2 := by
  apply walk_of_entry
  rw [entry_new, effective_of_in_force config e h,
    present_of_effective config _ _ (effective_of_in_force config e h)]
  rfl

/-! ## The lookup -/

/-- The address test of the loop holds at every node: a member of a node is not
the static object. -/
theorem address_test (walked : List String) :
    decide (HandlerObject.member_of_node walked ≠ HandlerObject.static_null_handler)
      = true := by
  simp

theorem loop_nil (walked : List String) (n : Node) (h : Handler) :
    HandlerMap.get_handler_loop walked n [] h = h := by
  simp [HandlerMap.get_handler_loop]

theorem loop_missing (walked : List String) (n : Node) (s : String)
    (rest : List String) (h : Handler) (hf : map_find n.next s = none) :
    HandlerMap.get_handler_loop walked n (s :: rest) h = h := by
  simp [HandlerMap.get_handler_loop, hf]

/-- One turn of the loop at a segment that is found: the address test being true,
the handler of the child is kept when the child captures or the segment is the
last one. -/
theorem loop_found (walked : List String) (n c : Node) (s : String)
    (rest : List String) (h : Handler) (hf : map_find n.next s = some c) :
    HandlerMap.get_handler_loop walked n (s :: rest) h =
      HandlerMap.get_handler_loop (walked ++ [s]) c rest
        (if c.capture_children || rest.isEmpty then c.handler else h) := by
  simp [HandlerMap.get_handler_loop, hf]

/-- When every segment is found, the loop ends with the handler member of the node
reached by the last segment. -/
theorem loop_of_walk (q : List String) :
    ∀ (walked : List String) (n c : Node) (h : Handler), q ≠ [] →
      Node.walk n q = some c →
      HandlerMap.get_handler_loop walked n q h = c.handler := by
  induction q with
  | nil => intro _ _ _ _ hq; exact absurd rfl hq
  | cons s r ih =>
    intro walked n c h _ hw
    simp only [Node.walk] at hw
    cases hf : map_find n.next s with
    | none => rw [hf] at hw; cases hw
    | some c1 =>
      rw [hf] at hw
      simp only at hw
      rw [loop_found walked n c1 s r h hf]
      cases r with
      | nil =>
        simp only [Node.walk, Option.some.injEq] at hw
        subst hw
        simp [loop_nil]
      | cons s2 r2 => exact ih _ _ _ _ (by simp) hw

/-- When every segment of the query is found, `get_handler` returns the handler
member of the node reached, whatever that member holds. -/
theorem get_handler_of_walk (m : HandlerMap) (q : List String) (c : Node)
    (hw : Node.walk m.root q = some c) :
    m.get_handler ⟨q⟩ = c.handler := by
  cases q with
  | nil =>
    simp only [Node.walk, Option.some.injEq] at hw
    subst hw
    simp [HandlerMap.get_handler, HandlerMap.get_handler_loop]
  | cons s r =>
    unfold HandlerMap.get_handler
    exact loop_of_walk (s :: r) [] m.root c _ (by simp) hw

/-- The exact path of an entry in force resolves to that entry's handler. -/
theorem get_handler_in_force (config : HandlerConfiguration) (D : Handler)
    (e : String × (Handler × Bool)) (h : in_force config e) :
    (HandlerMap.new config D).get_handler ⟨segments_of e⟩ = e.2.1 := by
  obtain ⟨c, hw, hc, -⟩ := walk_new_in_force config D e h
  rw [get_handler_of_walk _ _ c hw, hc]

/-! ## A missing child stops the walk -/

theorem loop_stops (pre : List String) :
    ∀ (walked : List String) (n c : Node) (s : String) (rest : List String)
      (h : Handler), Node.walk n pre = some c → map_find c.next s = none →
      HandlerMap.get_handler_loop walked n (pre ++ s :: rest) h =
        Node.captured n pre h := by
  induction pre with
  | nil =>
    intro walked n c s rest h hw hf
    simp only [Node.walk, Option.some.injEq] at hw
    subst hw
    simp [loop_missing _ _ _ _ _ hf, Node.captured]
  | cons x r ih =>
    intro walked n c s rest h hw hf
    simp only [Node.walk] at hw
    cases hx : map_find n.next x with
    | none => rw [hx] at hw; cases hw
    | some c1 =>
      rw [hx] at hw
      simp only at hw
      rw [List.cons_append, loop_found walked n c1 x _ h hx,
        ih (walked ++ [x]) c1 c s rest _ hw hf]
      simp [Node.captured, hx]

theorem node_capturing_nil (n : Node) :
    Node.capturing n [] = if n.capture_children then some n.handler else none := by
  unfold Node.capturing
  rw [entry_nil]
  cases n.capture_children <;> rfl

theorem node_capturing_cons (n c : Node) (s : String) (r : List String)
    (hf : map_find n.next s = some c) :
    Node.capturing n (s :: r) = Node.capturing c r := by
  unfold Node.capturing
  rw [entry_cons, hf]
  rfl

theorem captured_eq_foldl (pre : List String) :
    ∀ (n c : Node) (h : Handler), Node.walk n pre = some c →
      Node.captured n pre ((Node.capturing n []).getD h) =
        pre.inits.foldl (fun best p => (Node.capturing n p).getD best) h := by
  induction pre with
  | nil =>
    intro n c h _
    simp [Node.captured]
  | cons x r ih =>
    intro n c h hw
    simp only [Node.walk] at hw
    cases hx : map_find n.next x with
    | none => rw [hx] at hw; cases hw
    | some c1 =>
      rw [hx] at hw
      simp only at hw
      rw [List.inits_cons, List.foldl_cons, List.foldl_map]
      have hfun : (fun best p => (Node.capturing n (x :: p)).getD best) =
          (fun (best : Handler) p => (Node.capturing c1 p).getD best) := by
        funext best p
        rw [node_capturing_cons n c1 x p hx]
      rw [hfun, ← ih c1 c _ hw]
      simp only [Node.captured, hx, node_capturing_nil c1]
      cases c1.capture_children <;> simp

theorem foldl_getD_eq_head {α β : Type} (g : α → Option β) (l : List α) :
    ∀ d : β, l.foldl (fun best p => (g p).getD best) d =
      ((l.reverse.filterMap g).head?).getD d := by
  induction l with
  | nil => intro d; rfl
  | cons a t ih =>
    intro d
    rw [List.foldl_cons, ih, List.reverse_cons, List.filterMap_append, List.head?_append]
    cases (List.filterMap g t.reverse).head? with
    | some y => simp
    | none => cases hg : g a <;> simp [List.filterMap_cons, hg]

theorem walk_append (p r : List String) :
    ∀ n : Node, Node.walk n (p ++ r) = (Node.walk n p).bind (fun c => Node.walk c r) := by
  induction p with
  | nil => intro n; rfl
  | cons s p ih =>
    intro n
    simp only [List.cons_append, Node.walk]
    cases map_find n.next s with
    | none => rfl
    | some c => exact ih c

/-- In the built trie a node offers to deeper paths what the entry in force at its
segments offers. -/
theorem node_capturing_new (config : HandlerConfiguration) (D : Handler)
    (p : List String) (hp : Node.entry (HandlerMap.new config D).root p ≠ none) :
    Node.capturing (HandlerMap.new config D).root p = capturing config p := by
  unfold Node.capturing capturing
  rw [entry_new] at hp ⊢
  cases hpres : present config p with
  | false => rw [hpres] at hp; exact absurd rfl hp
  | true =>
    simp only [if_true]
    cases effective config p with
    | none => rfl
    | some x => rfl

theorem captured_new (config : HandlerConfiguration) (D : Handler)
    (pre : List String) (c : Node)
    (hw : Node.walk (HandlerMap.new config D).root pre = some c) :
    Node.captured (HandlerMap.new config D).root pre
        (if (HandlerMap.new config D).root.capture_children
         then (HandlerMap.new config D).root.handler else D) =
      longest_capture config D pre := by
  have h0 : (if (HandlerMap.new config D).root.capture_children
      then (HandlerMap.new config D).root.handler else D) =
      (Node.capturing (HandlerMap.new config D).root []).getD D := by
    rw [node_capturing_nil]
    cases (HandlerMap.new config D).root.capture_children <;> rfl
  rw [h0, captured_eq_foldl pre _ c D hw, foldl_getD_eq_head]
  unfold longest_capture
  congr 2
  apply List.filterMap_congr
  intro p hp
  apply node_capturing_new
  rw [List.mem_reverse, List.mem_inits] at hp
  obtain ⟨r, rfl⟩ := hp
  rw [walk_append] at hw
  unfold Node.entry
  cases hwp : Node.walk (HandlerMap.new config D).root p with
  | none => rw [hwp] at hw; cases hw
  | some c' => simp

/-! ## The longest capturing beginning -/

theorem inits_lengths_increase {α : Type} (l : List α) :
    l.inits.Pairwise (fun a b => a.length < b.length) := by
  induction l with
  | nil => simp
  | cons x t ih =>
    rw [List.inits_cons, List.pairwise_cons]
    constructor
    · intro b hb
      rw [List.mem_map] at hb
      obtain ⟨b', -, rfl⟩ := hb
      simp
    · rw [List.pairwise_map]
      exact ih.imp (fun h => by simpa using h)

theorem head_filterMap_reverse {α β : Type} (g : α → Option β) (l : List α) :
    (∃ A p B r, l = A ++ p :: B ∧ g p = some r ∧
        (l.reverse.filterMap g).head? = some r ∧ ∀ q ∈ B, g q = none) ∨
      ((l.reverse.filterMap g).head? = none ∧ ∀ q ∈ l, g q = none) := by
  induction l using List.reverseRecOn with
  | nil => right; simp
  | append_singleton t a ih =>
    cases hg : g a with
    | some r =>
      left
      refine ⟨t, a, [], r, rfl, hg, ?_, by simp⟩
      simp [List.filterMap_cons, hg]
    | none =>
      have hrev : ((t ++ [a]).reverse.filterMap g) = t.reverse.filterMap g := by
        simp [List.filterMap_cons, hg]
      rw [hrev]
      rcases ih with ⟨A, p, B, r, rfl, hp, hh, hB⟩ | ⟨hh, hall⟩
      · left
        refine ⟨A, p, B ++ [a], r, by simp, hp, hh, ?_⟩
        intro q hq
        rw [List.mem_append] at hq
        rcases hq with hq | hq
        · exact hB q hq
        · simp only [List.mem_singleton] at hq
          rw [hq, hg]
      · right
        refine ⟨hh, ?_⟩
        intro q hq
        rw [List.mem_append] at hq
        rcases hq with hq | hq
        · exact hall q hq
        · simp only [List.mem_singleton] at hq
          rw [hq, hg]

/-- The value of `longest_capture`, said without the list of beginnings: the
handler offered by a capturing beginning of `walked` than which no longer
beginning captures, or the default handler when no beginning captures. -/
theorem longest_capture_spec (config : HandlerConfiguration) (D : Handler)
    (walked : List String) :
    (∃ p, p <+: walked ∧
        capturing config p = some (longest_capture config D walked) ∧
        ∀ p', p' <+: walked → p.length < p'.length → capturing config p' = none) ∨
      (longest_capture config D walked = D ∧
        ∀ p', p' <+: walked → capturing config p' = none) := by
  unfold longest_capture
  rcases head_filterMap_reverse (capturing config) walked.inits with
    ⟨A, p, B, r, hl, hp, hh, hB⟩ | ⟨hh, hall⟩
  · left
    have hmem : p ∈ walked.inits := by rw [hl]; simp
    refine ⟨p, (List.mem_inits p walked).1 hmem, ?_, ?_⟩
    · rw [hh]; exact hp
    · intro p' hp' hlen
      have hp'mem : p' ∈ walked.inits := (List.mem_inits p' walked).2 hp'
      have hpw := inits_lengths_increase walked
      rw [hl] at hp'mem hpw
      rw [List.mem_append] at hp'mem
      rcases hp'mem with hA | hB'
      · have := (List.pairwise_append.1 hpw).2.2 p' hA p (by simp)
        omega
      · rw [List.mem_cons] at hB'
        rcases hB' with rfl | hB'
        · omega
        · exact hB p' hB'
  · right
    rw [hh]
    exact ⟨rfl, fun p' hp' => hall p' ((List.mem_inits p' walked).2 hp')⟩

/-! ## Insertions at different segment sequences commute -/

theorem key_less_of_lt {a b : String} (h : a.data < b.data) :
    key_less a b = true ∧ key_less b a = false ∧ a ≠ b ∧ b ≠ a := by
  refine ⟨by simp [key_less, h], by simp [key_less, lt_asymm h], ?_, ?_⟩
  · rintro rfl; exact lt_irrefl _ h
  · rintro rfl; exact lt_irrefl _ h

theorem key_less_total {a b : String} (h : a ≠ b) : a.data < b.data ∨ b.data < a.data := by
  rcases lt_trichotomy a.data b.data with h1 | h1 | h1
  · exact Or.inl h1
  · exact absurd (String.ext h1) h
  · exact Or.inr h1

theorem map_assign_comm {α : Type} (m : List (String × α)) (k1 k2 : String)
    (v1 v2 : α) (h : k1 ≠ k2) :
    map_assign (map_assign m k1 v1) k2 v2 = map_assign (map_assign m k2 v2) k1 v1 := by
  have h' : k2 ≠ k1 := fun e => h e.symm
  induction m with
  | nil =>
    rcases key_less_total h with h12 | h12
    · obtain ⟨a, b, c, d⟩ := key_less_of_lt h12
      simp [map_assign, a, b, c, d]
    · obtain ⟨a, b, c, d⟩ := key_less_of_lt h12
      simp [map_assign, a, b, c, d]
  | cons p rest ih =>
    obtain ⟨k, v⟩ := p
    by_cases e1 : k1 = k
    · subst e1
      rcases key_less_total h with h12 | h12
      · obtain ⟨a, b, c, d⟩ := key_less_of_lt h12
        simp [map_assign, a, b, c, d]
      · obtain ⟨a, b, c, d⟩ := key_less_of_lt h12
        simp [map_assign, a, b, c, d]
    · by_cases e2 : k2 = k
      · subst e2
        rcases key_less_total h with h12 | h12
        · obtain ⟨a, b, c, d⟩ := key_less_of_lt h12
          simp [map_assign, a, b, c, d]
        · obtain ⟨a, b, c, d⟩ := key_less_of_lt h12
          simp [map_assign, a, b, c, d]
      · rcases key_less_total e1 with h1 | h1 <;> rcases key_less_total e2 with h2 | h2 <;>
          rcases key_less_total h with h12 | h12 <;>
          obtain ⟨a1, b1, c1, d1⟩ := key_less_of_lt h1 <;>
          obtain ⟨a2, b2, c2, d2⟩ := key_less_of_lt h2 <;>
          obtain ⟨a, b, c, d⟩ := key_less_of_lt h12 <;>
          first
          | (simp [map_assign, a1, b1, c1, d1, a2, b2, c2, d2, a, b, c, d, ih]; done)
          | exact absurd (lt_trans h1 h2) (lt_asymm h12)
          | exact absurd (lt_trans h2 h1) (lt_asymm h12)

theorem map_assign_assign {α : Type} (m : List (String × α)) (k : String) (v v' : α) :
    map_assign (map_assign m k v) k v' = map_assign m k v' := by
  induction m with
  | nil => simp [map_assign]
  | cons p rest ih =>
    obtain ⟨k0, v0⟩ := p
    by_cases e : k = k0
    · subst e
      simp [map_assign]
    · by_cases l : key_less k k0 = true
      · simp [map_assign, e, l]
      · simp [map_assign, e, l, ih]

theorem child_of_assign (n : Node) (s : String) (c : Node) (s' : String) :
    Node.child { n with next := map_assign n.next s c } s' =
      if s' = s then c else Node.child n s' := by
  unfold Node.child
  simp only [map_find_assign]
  split <;> rfl

/-- Two insertions at different segment sequences give the same trie in either
order. -/
theorem insert_comm (h1 h2 : Handler) (b1 b2 : Bool) (p1 : List String) :
    ∀ (p2 : List String) (n : Node), p1 ≠ p2 →
      Node.insert h1 b1 p1 (Node.insert h2 b2 p2 n) =
        Node.insert h2 b2 p2 (Node.insert h1 b1 p1 n) := by
  induction p1 with
  | nil =>
    intro p2 n hne
    cases p2 with
    | nil => exact absurd rfl hne
    | cons s r => rfl
  | cons s1 r1 ih =>
    intro p2 n hne
    cases p2 with
    | nil => rfl
    | cons s2 r2 =>
      simp only [Node.insert, child_of_assign]
      by_cases hs : s1 = s2
      · subst hs
        have hr : r1 ≠ r2 := fun e => hne (by rw [e])
        simp only [if_true, map_assign_assign]
        rw [ih r2 (Node.child n s1) hr]
      · have hs' : ¬ s2 = s1 := fun e => hs e.symm
        simp only [hs, hs', if_false]
        rw [map_assign_comm _ s2 s1 _ _ hs']

/-- Configurations that are permutations of each other, with pairwise different
segment sequences, build the same trie. -/
theorem new_perm (l1 l2 : HandlerConfiguration) (D : Handler) (hperm : l1.Perm l2)
    (hdistinct : l1.Pairwise (fun a b => segments_of a ≠ segments_of b)) :
    HandlerMap.new l1 D = HandlerMap.new l2 D := by
  unfold HandlerMap.new
  congr 1
  apply List.Perm.foldl_eq' hperm
  intro x hx y hy z
  by_cases hxy : x = y
  · rw [hxy]
  · have hseg : segments_of x ≠ segments_of y :=
      hdistinct.forall (fun a b hab => Ne.symm hab) hx hy hxy
    exact insert_comm y.2.1 x.2.1 y.2.2 x.2.2 _ _ z (Ne.symm hseg)

/-! ## The nodes of a built trie and the entries they come from -/

theorem mem_of_effective (config : HandlerConfiguration) (q : List String)
    (x : Handler × Bool) (h : effective config q = some x) :
    ∃ e ∈ config, segments_of e = q ∧ e.2 = x := by
  unfold effective at h
  simp only [Option.map_eq_some'] at h
  obtain ⟨e, he, hx⟩ := h
  have hm := List.mem_of_getLast?_eq_some he
  simp only [List.mem_filter, decide_eq_true_eq] at hm
  exact ⟨e, hm.1, hm.2, hx⟩

theorem effective_ne_none (config : HandlerConfiguration) (q : List String)
    (e : String × (Handler × Bool)) (he : e ∈ config) (hq : segments_of e = q) :
    effective config q ≠ none := by
  unfold effective
  intro h
  simp only [Option.map_eq_none', List.getLast?_eq_none_iff] at h
  have hm : e ∈ config.filter (fun conf => segments_of conf = q) := by
    simp [List.mem_filter, he, hq]
  rw [h] at hm
  cases hm

theorem present_iff (config : HandlerConfiguration) (q : List String) :
    present config q = true ↔ q = [] ∨ ∃ e ∈ config, q <+: segments_of e := by
  unfold present
  simp only [Bool.or_eq_true, List.isEmpty_iff, List.any_eq_true,
    List.isPrefixOf_iff_prefix]

/-- A node of the built trie: its segments are present, and it holds the entry in
force there, or the defaults of the constructor of `Node`. -/
theorem node_of_new (config : HandlerConfiguration) (D : Handler) (q : List String)
    (c : Node) (hw : Node.walk (HandlerMap.new config D).root q = some c) :
    present config q = true ∧
      (c.handler, c.capture_children) =
        (effective config q).getD (Node.null_handler, false) := by
  have he : Node.entry (HandlerMap.new config D).root q =
      some (c.handler, c.capture_children) := by
    unfold Node.entry
    rw [hw]
    rfl
  rw [entry_new] at he
  cases hp : present config q with
  | false => rw [hp] at he; simp at he
  | true =>
    rw [hp] at he
    simp only [if_true, Option.some.injEq] at he
    exact ⟨rfl, he.symm⟩

theorem walk_of_present (config : HandlerConfiguration) (D : Handler) (q : List String)
    (hp : present config q = true) :
    ∃ c, Node.walk (HandlerMap.new config D).root q = some c := by
  have he := entry_new config D q
  rw [hp] at he
  simp only [if_true] at he
  obtain ⟨c, hc, -, -⟩ := walk_of_entry _ _ _ he
  exact ⟨c, hc⟩

/-! ## The accept loop -/

theorem accept_loop_all_valid (die : Bool) (oks : List Socket)
    (h : ∀ s ∈ oks, s.valid = true) :
    HttpServer.accept_loop die oks = ⟨none, oks.length, oks⟩ := by
  induction oks with
  | nil => rfl
  | cons s rest ih =>
    have hs : s.valid = true := h s (by simp)
    have hrest : ∀ t ∈ rest, t.valid = true := fun t ht => h t (by simp [ht])
    simp [HttpServer.accept_loop, hs, ih hrest]

theorem accept_loop_stops (oks : List Socket) (bad : Socket) (rest : List Socket)
    (h : ∀ s ∈ oks, s.valid = true) (hbad : bad.valid = false) :
    HttpServer.accept_loop true (oks ++ bad :: rest) =
      ⟨some bad.error, oks.length + 1, oks⟩ := by
  induction oks with
  | nil => simp [HttpServer.accept_loop, hbad]
  | cons s tail ih =>
    have hs : s.valid = true := h s (by simp)
    have htail : ∀ t ∈ tail, t.valid = true := fun t ht => h t (by simp [ht])
    simp [HttpServer.accept_loop, hs, ih htail]

theorem accept_loop_goes_on (accepted : List Socket) :
    HttpServer.accept_loop false accepted =
      ⟨none, accepted.length, accepted.filter (fun s => s.valid)⟩ := by
  induction accepted with
  | nil => rfl
  | cons s rest ih =>
    cases hs : s.valid <;> simp [HttpServer.accept_loop, hs, ih]

/-! ## Resolution of configured and unconfigured paths -/

open examples

/-- Claim C1, evaluated on the code: with the single route `/b/c` and the default
handler of the example program, no entry has the segments of `/b` and no capturing
entry begins them, yet `get_handler` does not return the default handler for `/b`:
it returns the `null_handler` copy held by the pass-through node `b`. -/
theorem get_handler_pass_through_node :
    (∀ e ∈ [("/b/c", (index_handler, false))],
        segments_of e ≠ (Query.ofPath "/b").components) ∧
      (∀ e ∈ [("/b/c", (index_handler, false))],
        e.2.2 = true → ¬ segments_of e <+: (Query.ofPath "/b").components) ∧
      (HandlerMap.new [("/b/c", (index_handler, false))] def_handler).get_handler
        (Query.ofPath "/b") = Node.null_handler ∧
      (HandlerMap.new [("/b/c", (index_handler, false))] def_handler).get_handler
        (Query.ofPath "/b") ≠ def_handler := by
  refine ⟨?_, ?_, rfl, ?_⟩
  · intro e he
    simp only [List.mem_singleton] at he
    subst he
    decide
  · intro e he hc
    simp only [List.mem_singleton] at he
    subst he
    cases hc
  · intro h
    exact absurd (congrArg code_of h) (by decide)

/-- Claim C2, evaluated on the code: with the capturing route `/a` (not
overwritten) and the deeper route `/a/b/c`, the path `/a/b` extends `/a` and no
other entry both extends `/a` and begins `/a/b`, yet `get_handler` does not return
the handler of `/a`: the last segment ends on the pass-through node `b`, whose
`null_handler` copy replaces it. -/
theorem get_handler_capture_lost_at_pass_through :
    in_force [("/a", (teapot_handler, true)), ("/a/b/c", (index_handler, false))]
        ("/a", (teapot_handler, true)) ∧
      (Query.ofPath "/a").components <+: (Query.ofPath "/a/b").components ∧
      (∀ e ∈ [("/a", (teapot_handler, true)), ("/a/b/c", (index_handler, false))],
        ¬ ((Query.ofPath "/a").components <+: segments_of e ∧
            segments_of e ≠ (Query.ofPath "/a").components ∧
            segments_of e <+: (Query.ofPath "/a/b").components)) ∧
      (HandlerMap.new
          [("/a", (teapot_handler, true)), ("/a/b/c", (index_handler, false))]
          def_handler).get_handler (Query.ofPath "/a/b") = Node.null_handler ∧
      (HandlerMap.new
          [("/a", (teapot_handler, true)), ("/a/b/c", (index_handler, false))]
          def_handler).get_handler (Query.ofPath "/a/b") ≠ teapot_handler := by
  refine ⟨⟨[], [("/a/b/c", (index_handler, false))], rfl, ?_⟩, by decide, ?_, rfl, ?_⟩
  · intro e he
    simp only [List.mem_singleton] at he
    subst he
    decide
  · intro e he
    simp only [List.mem_cons, List.mem_singleton, List.not_mem_nil, or_false] at he
    rcases he with rfl | rfl <;> decide
  · intro h
    exact absurd (congrArg code_of h) (by decide)

/-- Claim C3. For every configuration and every entry `(path, H, false)` of it that
no later entry with the same segments overwrites, `get_handler` applied to the
segments of `path` returns `H`; when `path` has no segment this is the handler of
the root, whose capture flag is then `false`. -/
theorem get_handler_exact_route (config : HandlerConfiguration) (D : Handler)
    (path : String) (H : Handler) (h : in_force config (path, (H, false))) :
    (HandlerMap.new config D).get_handler (Query.ofPath path) = H ∧
      ((Query.ofPath path).components = [] →
        (HandlerMap.new config D).root.handler = H ∧
        (HandlerMap.new config D).root.capture_children = false) := by
  refine ⟨get_handler_in_force config D _ h, ?_⟩
  intro hroot
  obtain ⟨c, hw, hc, hb⟩ := walk_new_in_force config D _ h
  have hseg : segments_of (path, (H, false)) = [] := hroot
  rw [hseg] at hw
  simp only [Node.walk, Option.some.injEq] at hw
  subst hw
  exact ⟨hc, hb⟩

theorem get_handler_exact_route_witness :
    in_force [("/", (index_handler, false)), ("/path2", (congratulations_handler, false))]
        ("/", (index_handler, false)) ∧
      ((HandlerMap.new
          [("/", (index_handler, false)), ("/path2", (congratulations_handler, false))]
          def_handler).get_handler (Query.ofPath "/") = index_handler ∧
        ((Query.ofPath "/").components = [] →
          (HandlerMap.new
            [("/", (index_handler, false)), ("/path2", (congratulations_handler, false))]
            def_handler).root.handler = index_handler ∧
          (HandlerMap.new
            [("/", (index_handler, false)), ("/path2", (congratulations_handler, false))]
            def_handler).root.capture_children = false)) :=
  have hin : in_force
      [("/", (index_handler, false)), ("/path2", (congratulations_handler, false))]
      ("/", (index_handler, false)) :=
    ⟨[], [("/path2", (congratulations_handler, false))], rfl, by
      intro e he
      simp only [List.mem_singleton] at he
      subst he
      decide⟩
  ⟨hin, get_handler_exact_route _ def_handler "/" index_handler hin⟩

/-- Claim C4, evaluated on the code: with the single capturing route `/path1/sub`
and the default handler of the example program, the handler `get_handler` returns
for `/path1` is `Node::null_handler`, which is neither the default handler nor the
handler of a configured entry. -/
theorem get_handler_returns_null_handler :
    (HandlerMap.new [("/path1/sub", (teapot_handler, true))] def_handler).get_handler
        (Query.ofPath "/path1") = Node.null_handler ∧
      (HandlerMap.new [("/path1/sub", (teapot_handler, true))] def_handler).get_handler
        (Query.ofPath "/path1") ≠ def_handler ∧
      (∀ e ∈ [("/path1/sub", (teapot_handler, true))],
        (HandlerMap.new [("/path1/sub", (teapot_handler, true))] def_handler).get_handler
          (Query.ofPath "/path1") ≠ e.2.1) := by
  refine ⟨rfl, ?_, ?_⟩
  · intro h
    exact absurd (congrArg code_of h) (by decide)
  · intro e he h
    simp only [List.mem_singleton] at he
    subst he
    exact absurd (congrArg code_of h) (by decide)

/-- Claim C5, evaluated on the code: with no route at all, `get_handler` returns for
the zero-segment path `/` the handler of the root, which is `Node::null_handler`,
whatever the default handler is; for the default handler of the example program
the two differ. -/
theorem get_handler_no_routes_root :
    (∀ D : Handler,
        (HandlerMap.new [] D).get_handler (Query.ofPath "/") = Node.null_handler) ∧
      (HandlerMap.new [] def_handler).get_handler (Query.ofPath "/") ≠ def_handler := by
  refine ⟨fun _ => rfl, ?_⟩
  intro h
  exact absurd (congrArg code_of h) (by decide)

/-- Claim C6. In the trie built from a configuration, when the segments `pre` lead
to a node `n` and the next segment `s` of the query has no child in `n`,
`get_handler` returns `longest_capture config D pre`, a value in which neither `s`
nor the segments after it occur: the handler of the longest beginning of `pre` (the
root included) whose entry in force captures children, or the default handler when
no beginning of `pre` captures. -/
theorem get_handler_short_circuit (config : HandlerConfiguration) (D : Handler)
    (pre : List String) (s : String) (rest : List String) (n : Node)
    (hwalk : Node.walk (HandlerMap.new config D).root pre = some n)
    (hmiss : map_find n.next s = none) :
    (HandlerMap.new config D).get_handler ⟨pre ++ s :: rest⟩ =
        longest_capture config D pre ∧
      ((∃ p, p <+: pre ∧
          capturing config p =
            some ((HandlerMap.new config D).get_handler ⟨pre ++ s :: rest⟩) ∧
          ∀ p', p' <+: pre → p.length < p'.length → capturing config p' = none) ∨
        ((HandlerMap.new config D).get_handler ⟨pre ++ s :: rest⟩ = D ∧
          ∀ p', p' <+: pre → capturing config p' = none)) := by
  have heq : (HandlerMap.new config D).get_handler ⟨pre ++ s :: rest⟩ =
      longest_capture config D pre := by
    have hne : (pre ++ s :: rest).isEmpty = false := by cases pre <;> rfl
    unfold HandlerMap.get_handler
    simp only [hne, Bool.or_false]
    rw [loop_stops pre [] _ n s rest _ hwalk hmiss, new_default_handler]
    exact captured_new config D pre n hwalk
  refine ⟨heq, ?_⟩
  rw [heq]
  exact longest_capture_spec config D pre

theorem get_handler_short_circuit_witness :
    Node.walk
        (HandlerMap.new
          [("/a", (index_handler, false)), ("/b/c", (teapot_handler, true))]
          def_handler).root ["b"] =
        some ⟨Node.null_handler, false, [("c", ⟨teapot_handler, true, []⟩)]⟩ ∧
      map_find [("c", (⟨teapot_handler, true, []⟩ : Node))] "x" = none ∧
      (Query.ofPath "/b/x/y").components = ["b"] ++ "x" :: ["y"] ∧
      (HandlerMap.new
          [("/a", (index_handler, false)), ("/b/c", (teapot_handler, true))]
          def_handler).get_handler ⟨["b"] ++ "x" :: ["y"]⟩ = def_handler :=
  ⟨rfl, rfl, rfl,
    (get_handler_short_circuit
      [("/a", (index_handler, false)), ("/b/c", (teapot_handler, true))]
      def_handler ["b"] "x" ["y"]
      ⟨Node.null_handler, false, [("c", ⟨teapot_handler, true, []⟩)]⟩ rfl rfl).1.trans rfl⟩

/-- Claim C7. When the configuration holds a capturing entry `(p, Hp, true)` and an
entry `(q, Hq, c)`, neither overwritten later, and the segments of `p` strictly
begin those of `q`, `get_handler` applied to the segments of `q` returns `Hq`, for
either value of `c`. -/
theorem get_handler_exact_over_capturing_ancestor (config : HandlerConfiguration)
    (D : Handler) (p q : String) (Hp Hq : Handler) (c : Bool)
    (_hp : in_force config (p, (Hp, true)))
    (hq : in_force config (q, (Hq, c)))
    (_hpre : (Query.ofPath p).components <+: (Query.ofPath q).components)
    (_hne : (Query.ofPath p).components ≠ (Query.ofPath q).components) :
    (HandlerMap.new config D).get_handler (Query.ofPath q) = Hq :=
  get_handler_in_force config D _ hq

theorem get_handler_exact_over_capturing_ancestor_witness :
    in_force [("/src", (teapot_handler, true)), ("/src/index", (index_handler, false))]
        ("/src", (teapot_handler, true)) ∧
      in_force [("/src", (teapot_handler, true)), ("/src/index", (index_handler, false))]
        ("/src/index", (index_handler, false)) ∧
      (Query.ofPath "/src").components <+: (Query.ofPath "/src/index").components ∧
      (Query.ofPath "/src").components ≠ (Query.ofPath "/src/index").components ∧
      (HandlerMap.new
          [("/src", (teapot_handler, true)), ("/src/index", (index_handler, false))]
          def_handler).get_handler (Query.ofPath "/src/index") = index_handler :=
  have h1 : in_force
      [("/src", (teapot_handler, true)), ("/src/index", (index_handler, false))]
      ("/src", (teapot_handler, true)) :=
    ⟨[], [("/src/index", (index_handler, false))], rfl, by
      intro e he
      simp only [List.mem_singleton] at he
      subst he
      decide⟩
  have h2 : in_force
      [("/src", (teapot_handler, true)), ("/src/index", (index_handler, false))]
      ("/src/index", (index_handler, false)) :=
    ⟨[("/src", (teapot_handler, true))], [], rfl, by simp⟩
  ⟨h1, h2, by decide, by decide,
    get_handler_exact_over_capturing_ancestor _ def_handler "/src" "/src/index"
      teapot_handler index_handler false h1 h2 (by decide) (by decide)⟩

/-- Claim C8. When the configuration holds the root route (a path without segments)
with `captureChildren = true` and handler `H`, not overwritten later, `get_handler`
returns `H` for the zero-segment path and for every path whose first segment is not
a child of the root; when that route is the whole configuration, it returns `H` for
every path. -/
theorem get_handler_capturing_root (config : HandlerConfiguration) (D : Handler)
    (path : String) (H : Handler)
    (hroot : (Query.ofPath path).components = [])
    (h : in_force config (path, (H, true))) :
    (HandlerMap.new config D).get_handler ⟨[]⟩ = H ∧
      (∀ (s : String) (rest : List String),
        map_find (HandlerMap.new config D).root.next s = none →
        (HandlerMap.new config D).get_handler ⟨s :: rest⟩ = H) ∧
      (config = [(path, (H, true))] →
        ∀ q : Query, (HandlerMap.new config D).get_handler q = H) := by
  obtain ⟨c, hw, hc, hb⟩ := walk_new_in_force config D _ h
  have hseg : segments_of (path, (H, true)) = [] := hroot
  rw [hseg] at hw
  simp only [Node.walk, Option.some.injEq] at hw
  subst hw
  have hmiss : ∀ (s : String) (rest : List String),
      map_find (HandlerMap.new config D).root.next s = none →
      (HandlerMap.new config D).get_handler ⟨s :: rest⟩ = H := by
    intro s rest hf
    unfold HandlerMap.get_handler
    rw [loop_missing _ _ _ _ _ hf]
    simp only at hb
    simp [hb, hc]
  refine ⟨?_, hmiss, ?_⟩
  · rw [get_handler_of_walk _ [] _ rfl, hc]
  · intro hcfg q
    obtain ⟨comps⟩ := q
    cases comps with
    | nil => rw [get_handler_of_walk _ [] _ rfl, hc]
    | cons s rest =>
      apply hmiss
      subst hcfg
      have hnext : (HandlerMap.new [(path, (H, true))] D).root.next = [] := by
        simp only [HandlerMap.new, List.foldl_cons, List.foldl_nil]
        rw [hroot]
        rfl
      rw [hnext]
      rfl

theorem get_handler_capturing_root_witness :
    (Query.ofPath "/").components = [] ∧
      in_force [("/", (index_handler, true))] ("/", (index_handler, true)) ∧
      ((HandlerMap.new [("/", (index_handler, true))] def_handler).get_handler ⟨[]⟩
          = index_handler ∧
        (∀ (s : String) (rest : List String),
          map_find (HandlerMap.new [("/", (index_handler, true))] def_handler).root.next s
              = none →
          (HandlerMap.new [("/", (index_handler, true))] def_handler).get_handler
            ⟨s :: rest⟩ = index_handler) ∧
        ([("/", (index_handler, true))] = [("/", (index_handler, true))] →
          ∀ q : Query,
            (HandlerMap.new [("/", (index_handler, true))] def_handler).get_handler q
              = index_handler)) :=
  ⟨rfl, ⟨[], [], rfl, by simp⟩,
    get_handler_capturing_root [("/", (index_handler, true))] def_handler "/"
      index_handler rfl ⟨[], [], rfl, by simp⟩⟩

/-- Claim C9. When two entries `e1` and, later, `e2` of the configuration have the
same segments and no entry after `e2` has them, the constructor (a total function)
builds a trie whose node for these segments holds both the handler and the capture
flag of `e2`, and `get_handler` on exactly these segments returns the handler of
`e2`. -/
theorem new_last_write_wins (l1 l2 l3 : HandlerConfiguration)
    (e1 e2 : String × (Handler × Bool)) (D : Handler)
    (_hsame : segments_of e1 = segments_of e2)
    (hlast : ∀ e ∈ l3, segments_of e ≠ segments_of e2) :
    (∃ c, Node.walk (HandlerMap.new ((l1 ++ e1 :: l2) ++ e2 :: l3) D).root
          (segments_of e2) = some c ∧
        c.handler = e2.2.1 ∧ c.capture_children = e2.2.2) ∧
      (HandlerMap.new ((l1 ++ e1 :: l2) ++ e2 :: l3) D).get_handler ⟨segments_of e2⟩
        = e2.2.1 :=
  have hin : in_force ((l1 ++ e1 :: l2) ++ e2 :: l3) e2 := ⟨_, _, rfl, hlast⟩
  ⟨walk_new_in_force _ D e2 hin, get_handler_in_force _ D e2 hin⟩

theorem new_last_write_wins_witness :
    segments_of ("/path1", (index_handler, false))
        = segments_of ("/path1/", (teapot_handler, true)) ∧
      (∀ e ∈ ([] : HandlerConfiguration),
        segments_of e ≠ segments_of ("/path1/", (teapot_handler, true))) ∧
      ((∃ c, Node.walk
            (HandlerMap.new
              (([] ++ ("/path1", (index_handler, false)) :: []) ++
                ("/path1/", (teapot_handler, true)) :: []) def_handler).root
            (segments_of ("/path1/", (teapot_handler, true))) = some c ∧
          c.handler = teapot_handler ∧ c.capture_children = true) ∧
        (HandlerMap.new
            (([] ++ ("/path1", (index_handler, false)) :: []) ++
              ("/path1/", (teapot_handler, true)) :: []) def_handler).get_handler
          ⟨segments_of ("/path1/", (teapot_handler, true))⟩ = teapot_handler) :=
  ⟨by decide, by simp,
    new_last_write_wins [] [] [] ("/path1", (index_handler, false))
      ("/path1/", (teapot_handler, true)) def_handler (by decide) (by simp)⟩

/-- Claim C10. With the routes `/` to `(H_index, false)`, `/path1` to
`(H_teapot, true)` and `/src` to `(H_file, true)` and the default handler `H_404`,
whatever the four handlers are, `get_handler` resolves `/` to `H_index`, `/path1`
and `/path1/extra` to `H_teapot`, `/path2` to `H_404` and `/src/readme.txt` to
`H_file`. -/
theorem get_handler_scenario (H_index H_teapot H_file H_404 : Handler) :
    (HandlerMap.new
        [("/", (H_index, false)), ("/path1", (H_teapot, true)), ("/src", (H_file, true))]
        H_404).get_handler (Query.ofPath "/") = H_index ∧
      (HandlerMap.new
        [("/", (H_index, false)), ("/path1", (H_teapot, true)), ("/src", (H_file, true))]
        H_404).get_handler (Query.ofPath "/path1") = H_teapot ∧
      (HandlerMap.new
        [("/", (H_index, false)), ("/path1", (H_teapot, true)), ("/src", (H_file, true))]
        H_404).get_handler (Query.ofPath "/path1/extra") = H_teapot ∧
      (HandlerMap.new
        [("/", (H_index, false)), ("/path1", (H_teapot, true)), ("/src", (H_file, true))]
        H_404).get_handler (Query.ofPath "/path2") = H_404 ∧
      (HandlerMap.new
        [("/", (H_index, false)), ("/path1", (H_teapot, true)), ("/src", (H_file, true))]
        H_404).get_handler (Query.ofPath "/src/readme.txt") = H_file :=
  ⟨rfl, rfl, rfl, rfl, rfl⟩

/-! ## The server: bind failure, accept errors, connection threads -/

/-- Claim C11. When the listening socket that the constructor builds is not valid
(the bind failed), `error()` of the constructed server is the error of that socket,
a value that no run of `start` enters into; and `start()`, for whatever `accept`
would return, has that same error as its result, after no call of `accept` and
without handing any socket to a thread. -/
theorem start_after_bind_failure (listen : Nat → Nat → ServerSocket)
    (handlers : HandlerConfiguration) (default_handler : Handler)
    (options : HttpServer.Options)
    (hbind : (listen options.port options.queue_length).valid = false) :
    (HttpServer.new listen handlers default_handler options).error =
        (listen options.port options.queue_length).error ∧
      ∀ accepted : List Socket,
        (HttpServer.new listen handlers default_handler options).start accepted =
          ⟨some (listen options.port options.queue_length).error, 0, []⟩ := by
  refine ⟨rfl, ?_⟩
  intro accepted
  simp [HttpServer.start, HttpServer.new, hbind]

theorem start_after_bind_failure_witness :
    ((fun (_ _ : Nat) => (⟨false, Error.failure 98⟩ : ServerSocket)) 80 5).valid = false ∧
      ((HttpServer.new (fun _ _ => ⟨false, Error.failure 98⟩)
            [("/", (index_handler, false))] def_handler ⟨80, 5, false⟩).error =
          ((fun (_ _ : Nat) => (⟨false, Error.failure 98⟩ : ServerSocket)) 80 5).error ∧
        ∀ accepted : List Socket,
          (HttpServer.new (fun _ _ => ⟨false, Error.failure 98⟩)
              [("/", (index_handler, false))] def_handler ⟨80, 5, false⟩).start accepted =
            ⟨some ((fun (_ _ : Nat) =>
              (⟨false, Error.failure 98⟩ : ServerSocket)) 80 5).error, 0, []⟩) :=
  ⟨rfl,
    start_after_bind_failure (fun _ _ => ⟨false, Error.failure 98⟩)
      [("/", (index_handler, false))] def_handler ⟨80, 5, false⟩ rfl⟩

/-- Claim C12. With a valid listening socket: if `die_on_error` is set and the calls
of `accept` return valid sockets `oks` and then a socket `bad` that is not valid,
the loop has stopped there, after `oks.length + 1` calls, with the error of `bad`
as result and exactly the sockets `oks` handed to threads, whatever `accept` would
return next; if `die_on_error` is not set, then for every sequence of outcomes the
loop has no result, has taken every outcome, and has handed to threads exactly the
valid sockets; and as long as every socket is valid the loop has no result and one
thread per socket, for either setting. -/
theorem start_accept_errors (srv : HttpServer) (hss : srv.ss.valid = true) :
    (srv.die_on_error = true →
        ∀ (oks : List Socket) (bad : Socket) (rest : List Socket),
          (∀ s ∈ oks, s.valid = true) → bad.valid = false →
          srv.start (oks ++ bad :: rest) = ⟨some bad.error, oks.length + 1, oks⟩) ∧
      (srv.die_on_error = false →
        ∀ accepted : List Socket,
          srv.start accepted =
            ⟨none, accepted.length, accepted.filter (fun s => s.valid)⟩) ∧
      (∀ oks : List Socket, (∀ s ∈ oks, s.valid = true) →
        srv.start oks = ⟨none, oks.length, oks⟩) := by
  have hstart : ∀ accepted, srv.start accepted =
      HttpServer.accept_loop srv.die_on_error accepted := by
    intro accepted
    simp [HttpServer.start, hss]
  refine ⟨?_, ?_, ?_⟩
  · intro hdie oks bad rest hoks hbad
    rw [hstart, hdie]
    exact accept_loop_stops oks bad rest hoks hbad
  · intro hdie accepted
    rw [hstart, hdie]
    exact accept_loop_goes_on accepted
  · intro oks hoks
    rw [hstart]
    exact accept_loop_all_valid _ oks hoks

theorem start_accept_errors_witness :
    (HttpServer.new (fun _ _ => ⟨true, Error.OK⟩) [("/", (index_handler, false))]
        def_handler ⟨80, 5, true⟩).ss.valid = true ∧
      (HttpServer.new (fun _ _ => ⟨true, Error.OK⟩) [("/", (index_handler, false))]
        def_handler ⟨80, 5, true⟩).start
          ([(⟨true, Error.OK, .ok ⟨Query.ofPath "/"⟩, fun _ => .ok ()⟩ : Socket)] ++
            (⟨false, Error.failure 24, .error "closed", fun _ => .error "closed"⟩ : Socket)
              :: []) =
        ⟨some (Error.failure 24), 2,
          [(⟨true, Error.OK, .ok ⟨Query.ofPath "/"⟩, fun _ => .ok ()⟩ : Socket)]⟩ :=
  ⟨rfl,
    (start_accept_errors
      (HttpServer.new (fun _ _ => ⟨true, Error.OK⟩) [("/", (index_handler, false))]
        def_handler ⟨80, 5, true⟩) rfl).1 rfl
      [⟨true, Error.OK, .ok ⟨Query.ofPath "/"⟩, fun _ => .ok ()⟩]
      ⟨false, Error.failure 24, .error "closed", fun _ => .error "closed"⟩ []
      (by simp) rfl⟩

/-- Claim C14. Processing one more entry `(path, H, c)` in the constructor sets the
handler and flag read at the segments `P` of `path` to `(H, c)`; every node that
was there before at other segments is still there with the same handler and flag
(so every node keeps the children it had); where no node was before, a node is
there afterwards exactly on the way to `P`, and off `P` itself it holds
`Node::null_handler` and `capture_children = false`. -/
theorem new_insertion_frame (l : HandlerConfiguration) (path : String) (H : Handler)
    (c : Bool) (D : Handler) :
    Node.entry (HandlerMap.new (l ++ [(path, (H, c))]) D).root
        (Query.ofPath path).components = some (H, c) ∧
      (∀ (q : List String) (x : Handler × Bool),
        q ≠ (Query.ofPath path).components →
        Node.entry (HandlerMap.new l D).root q = some x →
        Node.entry (HandlerMap.new (l ++ [(path, (H, c))]) D).root q = some x) ∧
      (∀ q : List String,
        q ≠ (Query.ofPath path).components →
        Node.entry (HandlerMap.new l D).root q = none →
        Node.entry (HandlerMap.new (l ++ [(path, (H, c))]) D).root q =
          if q <+: (Query.ofPath path).components
          then some (Node.null_handler, false) else none) := by
  have hstep : ∀ q, Node.entry (HandlerMap.new (l ++ [(path, (H, c))]) D).root q =
      if q = (Query.ofPath path).components then some (H, c)
      else if q <+: (Query.ofPath path).components then
        some ((Node.entry (HandlerMap.new l D).root q).getD (Node.null_handler, false))
      else Node.entry (HandlerMap.new l D).root q := by
    intro q
    rw [new_root_append]
    exact entry_insert H c _ _ q
  refine ⟨?_, ?_, ?_⟩
  · rw [hstep, if_pos rfl]
  · intro q x hq hx
    rw [hstep, if_neg hq, hx]
    split <;> rfl
  · intro q hq hx
    rw [hstep, if_neg hq, hx]
    rfl

/-- Claim C15. For every trie and every non-empty path all of whose segments are
found from the root, `get_handler` returns the handler member of the node reached
by the last segment; the address test of the loop is true at every node; so in a
built trie a path that ends where no entry is in force resolves to the node's copy
of `Node::null_handler`. -/
theorem get_handler_last_node (m : HandlerMap) (q : List String) (c : Node)
    (_hq : q ≠ []) (hw : Node.walk m.root q = some c) :
    m.get_handler ⟨q⟩ = c.handler ∧
      (∀ walked : List String,
        decide (HandlerObject.member_of_node walked
          ≠ HandlerObject.static_null_handler) = true) ∧
      (∀ (config : HandlerConfiguration) (D : Handler),
        m = HandlerMap.new config D → effective config q = none →
        m.get_handler ⟨q⟩ = Node.null_handler) := by
  refine ⟨get_handler_of_walk m q c hw, address_test, ?_⟩
  intro config D hm heff
  subst hm
  have hnode := (node_of_new config D q c hw).2
  rw [heff] at hnode
  simp only [Option.getD_none, Prod.mk.injEq] at hnode
  rw [get_handler_of_walk _ q c hw, hnode.1]

theorem get_handler_last_node_witness :
    ["src"] ≠ [] ∧
      Node.walk (HandlerMap.new [("/src/docs", (index_handler, true))] def_handler).root
          ["src"] =
        some ⟨Node.null_handler, false, [("docs", ⟨index_handler, true, []⟩)]⟩ ∧
      (HandlerMap.new [("/src/docs", (index_handler, true))] def_handler).get_handler
          ⟨["src"]⟩ = Node.null_handler :=
  ⟨by decide, rfl,
    (get_handler_last_node
      (HandlerMap.new [("/src/docs", (index_handler, true))] def_handler) ["src"]
      ⟨Node.null_handler, false, [("docs", ⟨index_handler, true, []⟩)]⟩
      (by decide) rfl).1⟩

/-- Claim C16. In the trie built from any configuration, a node whose
`capture_children` flag is set holds the handler of an entry of the configuration
with exactly the node's segments and a set flag; every node other than the root
lies on the way to the node of some entry; and a node other than the root without
children holds the handler and flag of an entry with exactly its segments. -/
theorem new_invariant (config : HandlerConfiguration) (D : Handler) (q : List String)
    (c : Node) (hw : Node.walk (HandlerMap.new config D).root q = some c) :
    (c.capture_children = true →
        ∃ e ∈ config, segments_of e = q ∧ e.2.1 = c.handler ∧ e.2.2 = true) ∧
      (q ≠ [] → ∃ e ∈ config, q <+: segments_of e) ∧
      (q ≠ [] → c.next = [] →
        ∃ e ∈ config, segments_of e = q ∧ e.2.1 = c.handler ∧
          e.2.2 = c.capture_children) := by
  obtain ⟨hp, hnode⟩ := node_of_new config D q c hw
  have hon : q ≠ [] → ∃ e ∈ config, q <+: segments_of e := by
    intro hq
    rcases (present_iff config q).1 hp with h | h
    · exact absurd h hq
    · exact h
  refine ⟨?_, hon, ?_⟩
  · intro hcap
    cases heff : effective config q with
    | none =>
      rw [heff] at hnode
      simp only [Option.getD_none, Prod.mk.injEq] at hnode
      rw [hnode.2] at hcap
      cases hcap
    | some x =>
      rw [heff] at hnode
      simp only [Option.getD_some] at hnode
      obtain ⟨e, he, hseg, hx⟩ := mem_of_effective config q x heff
      refine ⟨e, he, hseg, ?_, ?_⟩
      · rw [hx, ← hnode]
      · rw [hx, ← hnode]; exact hcap
  · intro hq hleaf
    obtain ⟨e, he, t, ht⟩ := hon hq
    cases t with
    | nil =>
      rw [List.append_nil] at ht
      cases heff : effective config q with
      | none => exact absurd heff (effective_ne_none config q e he ht.symm)
      | some x =>
        rw [heff] at hnode
        simp only [Option.getD_some] at hnode
        obtain ⟨e', he', hseg, hx⟩ := mem_of_effective config q x heff
        exact ⟨e', he', hseg, by rw [hx, ← hnode], by rw [hx, ← hnode]⟩
    | cons s r =>
      exfalso
      have hpres : present config (q ++ [s]) = true := by
        rw [present_iff]
        refine Or.inr ⟨e, he, r, ?_⟩
        rw [← ht]
        simp
      obtain ⟨c', hc'⟩ := walk_of_present config D _ hpres
      rw [walk_append, hw] at hc'
      simp only [Option.some_bind, Node.walk, hleaf, map_find] at hc'
      cases hc'

theorem new_invariant_witness :
    Node.walk (HandlerMap.new [("/b/c", (teapot_handler, true))] def_handler).root
        ["b", "c"] = some ⟨teapot_handler, true, []⟩ ∧
      (((⟨teapot_handler, true, []⟩ : Node).capture_children = true →
          ∃ e ∈ [("/b/c", (teapot_handler, true))],
            segments_of e = ["b", "c"] ∧
              e.2.1 = (⟨teapot_handler, true, []⟩ : Node).handler ∧ e.2.2 = true) ∧
        (["b", "c"] ≠ [] →
          ∃ e ∈ [("/b/c", (teapot_handler, true))], ["b", "c"] <+: segments_of e) ∧
        (["b", "c"] ≠ [] → (⟨teapot_handler, true, []⟩ : Node).next = [] →
          ∃ e ∈ [("/b/c", (teapot_handler, true))],
            segments_of e = ["b", "c"] ∧
              e.2.1 = (⟨teapot_handler, true, []⟩ : Node).handler ∧
              e.2.2 = (⟨teapot_handler, true, []⟩ : Node).capture_children)) :=
  ⟨rfl,
    new_invariant [("/b/c", (teapot_handler, true))] def_handler ["b", "c"]
      ⟨teapot_handler, true, []⟩ rfl⟩

/-- Claim C17. Two configurations that are permutations of each other and whose
entries have pairwise different segment sequences build equal tries, and
`get_handler` returns the same handler for every path under both. -/
theorem new_order_independent (l1 l2 : HandlerConfiguration) (D : Handler)
    (hperm : l1.Perm l2)
    (hdistinct : l1.Pairwise (fun a b => segments_of a ≠ segments_of b)) :
    (HandlerMap.new l1 D).root = (HandlerMap.new l2 D).root ∧
      ∀ q : Query, (HandlerMap.new l1 D).get_handler q =
        (HandlerMap.new l2 D).get_handler q := by
  have h := new_perm l1 l2 D hperm hdistinct
  exact ⟨by rw [h], fun q => by rw [h]⟩

theorem new_order_independent_witness :
    List.Perm [("/src", (index_handler, true)), ("/path1", (teapot_handler, false))]
        [("/path1", (teapot_handler, false)), ("/src", (index_handler, true))] ∧
      List.Pairwise (fun a b => segments_of a ≠ segments_of b)
        [("/src", (index_handler, true)), ("/path1", (teapot_handler, false))] ∧
      ((HandlerMap.new
            [("/src", (index_handler, true)), ("/path1", (teapot_handler, false))]
            def_handler).root =
          (HandlerMap.new
            [("/path1", (teapot_handler, false)), ("/src", (index_handler, true))]
            def_handler).root ∧
        ∀ q : Query,
          (HandlerMap.new
              [("/src", (index_handler, true)), ("/path1", (teapot_handler, false))]
              def_handler).get_handler q =
            (HandlerMap.new
              [("/path1", (teapot_handler, false)), ("/src", (index_handler, true))]
              def_handler).get_handler q) :=
  have hperm : List.Perm
      [("/src", (index_handler, true)), ("/path1", (teapot_handler, false))]
      [("/path1", (teapot_handler, false)), ("/src", (index_handler, true))] :=
    List.Perm.swap _ _ []
  have hdistinct : List.Pairwise (fun a b => segments_of a ≠ segments_of b)
      [("/src", (index_handler, true)), ("/path1", (teapot_handler, false))] := by
    simp only [List.pairwise_cons, List.mem_singleton, List.not_mem_nil, forall_eq,
      List.Pairwise.nil, and_true, IsEmpty.forall_iff, implies_true]
    decide
  ⟨hperm, hdistinct, new_order_independent _ _ def_handler hperm hdistinct⟩

end internals

end net
